import Mathlib

/-!
# Verification of the Markdown converter's Mermaid pipeline and job tracker

Shallow embedding of the core logic of `src/server.js` of the `md_converter`
repository: the Mermaid diagram Extractor (the JS regex exec loop），the
descending-order Document Rewriter, the progress-event loop of
`processMermaidDiagrams`, and the job registry (`initJob`, `updateProgress`,
`completeJob`, the `/convert` handler's validation prelude and its catch
block).  Documents are `List Char`; JS numbers that reach `Math.floor` are
`ℚ`; timers are explicit timestamped action traces.
-/

namespace MdConv

/-- The backtick character (U+0060), written via its code point. -/
def bt : Char := Char.ofNat 96

/-- The opening fence matched by the JS regex: three backticks, `mermaid`,
then a newline (the literal `(three backticks)mermaid\n` of
`/(three backticks)mermaid\n([\s\S]*?)(three backticks)/g`). -/
def OPEN : List Char := [bt, bt, bt, 'm', 'e', 'r', 'm', 'a', 'i', 'd', '\n']

/-- The closing fence: three backticks. -/
def CLOSE : List Char := [bt, bt, bt]

/-- `OPEN` without its final newline; an occurrence of `OPEN` that starts
strictly inside a segment `g` of `g ++ OPEN ++ _` lies within `g ++ OPENinit`. -/
def OPENinit : List Char := [bt, bt, bt, 'm', 'e', 'r', 'm', 'a', 'i', 'd']

/-- `p` is a prefix of `s` (boolean, structural). -/
def headMatch : List Char → List Char → Bool
  | [], _ => true
  | _ :: _, [] => false
  | a :: as, b :: bs => a == b && headMatch as bs

/-- The pattern `pat` occurs in `s` at position `k`. -/
def matchAt (pat s : List Char) (k : Nat) : Bool :=
  headMatch pat (s.drop k)

/-- Index of the leftmost occurrence of `pat` in `s`, as the JS regex engine
finds it. -/
def findSub (pat : List Char) : List Char → Option Nat
  | [] => if headMatch pat [] then some 0 else none
  | c :: rest =>
      if headMatch pat (c :: rest) then some 0
      else (findSub pat rest).map (· + 1)

/-- Whether `pat` occurs anywhere in `s`. -/
def hasSub (pat s : List Char) : Bool :=
  (findSub pat s).isSome

theorem headMatch_nil (s : List Char) : headMatch [] s = true := by
  cases s <;> rfl

theorem headMatch_iff_take (p : List Char) :
    ∀ s : List Char, headMatch p s = true ↔ s.take p.length = p := by
  induction p with
  | nil => intro s; simp [headMatch_nil]
  | cons a as ih =>
      intro s
      cases s with
      | nil => simp [headMatch]
      | cons b bs =>
          simp only [headMatch, List.length_cons, List.take_succ_cons,
            Bool.and_eq_true, beq_iff_eq, List.cons.injEq, ih bs]
          constructor
          · rintro ⟨h1, h2⟩; exact ⟨h1.symm, h2⟩
          · rintro ⟨h1, h2⟩; exact ⟨h1.symm, h2⟩

theorem headMatch_le_length {p s : List Char} (h : headMatch p s = true) :
    p.length ≤ s.length := by
  have ht := (headMatch_iff_take p s).mp h
  have := congrArg List.length ht
  simp only [List.length_take] at this
  omega

theorem headMatch_append {p x : List Char} (y : List Char)
    (h : p.length ≤ x.length) : headMatch p (x ++ y) = headMatch p x := by
  have h1 : (headMatch p (x ++ y) = true) ↔ (headMatch p x = true) := by
    rw [headMatch_iff_take, headMatch_iff_take, List.take_append_of_le_length h]
  cases hxy : headMatch p (x ++ y) <;> cases hx : headMatch p x <;> simp_all

theorem matchAt_append_left {pat a : List Char} (b : List Char) {k : Nat}
    (h : k + pat.length ≤ a.length) :
    matchAt pat (a ++ b) k = matchAt pat a k := by
  unfold matchAt
  rw [List.drop_append_of_le_length (by omega)]
  exact headMatch_append _ (by simp [List.length_drop]; omega)

theorem matchAt_append_right (pat a b : List Char) (k : Nat) :
    matchAt pat (a ++ b) (a.length + k) = matchAt pat b k := by
  unfold matchAt
  congr 1
  rw [List.drop_append_eq_append_drop]
  simp

theorem findSub_eq_some {pat s : List Char} {k : Nat}
    (h : findSub pat s = some k) :
    matchAt pat s k = true ∧ ∀ j, j < k → matchAt pat s j = false := by
  induction s generalizing k with
  | nil =>
      unfold findSub at h
      split at h
      · rename_i hm
        injection h with h; subst h
        exact ⟨by simpa [matchAt] using hm, fun j hj => absurd hj (by omega)⟩
      · exact absurd h (by simp)
  | cons c rest ih =>
      unfold findSub at h
      split at h
      · rename_i hm
        injection h with h; subst h
        exact ⟨by simpa [matchAt] using hm, fun j hj => absurd hj (by omega)⟩
      · rename_i hm
        rcases Option.map_eq_some'.mp h with ⟨k', hk', rfl⟩
        rcases ih hk' with ⟨h1, h2⟩
        refine ⟨by simpa [matchAt] using h1, ?_⟩
        intro j hj
        match j with
        | 0 => simpa [matchAt] using Bool.of_not_eq_true hm
        | j + 1 =>
            have := h2 j (by omega)
            simpa [matchAt] using this

theorem findSub_eq_none {pat s : List Char} (h : findSub pat s = none) :
    ∀ j, matchAt pat s j = false := by
  induction s with
  | nil =>
      intro j
      unfold findSub at h
      split at h
      · exact absurd h (by simp)
      · rename_i hm
        unfold matchAt
        rw [List.drop_nil]
        exact Bool.of_not_eq_true hm
  | cons c rest ih =>
      intro j
      unfold findSub at h
      split at h
      · exact absurd h (by simp)
      · rename_i hm
        have hrest : findSub pat rest = none := by
          cases hr : findSub pat rest with
          | none => rfl
          | some k => rw [hr] at h; exact absurd h (by simp)
        match j with
        | 0 => simpa [matchAt] using Bool.of_not_eq_true hm
        | j + 1 => simpa [matchAt] using ih hrest j

theorem findSub_of_min {pat s : List Char} {k : Nat}
    (hk : matchAt pat s k = true) (hmin : ∀ j, j < k → matchAt pat s j = false) :
    findSub pat s = some k := by
  induction s generalizing k with
  | nil =>
      unfold findSub
      match k with
      | 0 => simp only [matchAt, List.drop_nil] at hk; simp [hk]
      | k + 1 =>
          have := hmin 0 (by omega)
          simp only [matchAt, List.drop_nil] at hk this
          rw [hk] at this; exact absurd this (by simp)
  | cons c rest ih =>
      unfold findSub
      match k with
      | 0 =>
          simp only [matchAt, List.drop_zero] at hk
          simp [hk]
      | k + 1 =>
          have h0 := hmin 0 (by omega)
          simp only [matchAt, List.drop_zero] at h0
          rw [h0]
          have hk' : matchAt pat rest k = true := by simpa [matchAt] using hk
          have hmin' : ∀ j, j < k → matchAt pat rest j = false := by
            intro j hj
            have := hmin (j + 1) (by omega)
            simpa [matchAt] using this
          simp [ih hk' hmin']

theorem findSub_bound {pat s : List Char} {k : Nat}
    (h : findSub pat s = some k) : k + pat.length ≤ s.length := by
  have hm := (findSub_eq_some h).1
  unfold matchAt at hm
  have := headMatch_le_length hm
  simp only [List.length_drop] at this
  -- k itself is within bounds: if k > s.length then drop is [] and pat = []
  by_cases hk : k ≤ s.length
  · omega
  · exfalso
    have hdrop : s.drop k = [] := List.drop_eq_nil_of_le (by omega)
    rw [hdrop] at hm
    have hp : pat.length ≤ 0 := by simpa using headMatch_le_length hm
    -- pat = [] makes the bound trivial; but we are in the contradiction branch:
    -- with pat = [] we have k + 0 ≤ s.length required, yet hk says k > s.length.
    -- findSub never returns an index beyond the first position where matching
    -- starts on the empty remainder; show k ≤ s.length always.
    have : k ≤ s.length := by
      clear hm hdrop this
      induction s generalizing k with
      | nil =>
          unfold findSub at h
          split at h
          · injection h with h; omega
          · exact absurd h (by simp)
      | cons c rest ih =>
          unfold findSub at h
          split at h
          · injection h with h; omega
          · rcases Option.map_eq_some'.mp h with ⟨k', hk', rfl⟩
            have := ih hk'
            simp only [List.length_cons]
            omega
    omega

theorem hasSub_false_iff {pat s : List Char} :
    hasSub pat s = false ↔ findSub pat s = none := by
  unfold hasSub
  cases findSub pat s <;> simp

/-- Whitespace as stripped by JS `String.prototype.trim` (ASCII part). -/
def isWs (c : Char) : Bool :=
  c == ' ' || c == '\t' || c == '\n' || c == '\r' ||
    c == Char.ofNat 11 || c == Char.ofNat 12

/-- JS `String.prototype.trim`: strip leading and trailing whitespace. -/
def trim (s : List Char) : List Char :=
  ((s.dropWhile isWs).reverse.dropWhile isWs).reverse

/-- One extracted diagram occurrence, as pushed by the `while` loop of
`processMermaidDiagrams`: `original` is `match[0]` (the whole fenced block),
`code` is `match[1].trim()`, and `index` is `match.index`. -/
structure Occ where
  original : List Char
  code : List Char
  index : Nat
  deriving DecidableEq, Repr

/-- The regex exec loop of `processMermaidDiagrams` on the suffix `s` of the
document beginning at absolute offset `base`: find the leftmost opening fence,
then the nearest closing fence after it (the lazy `[\s\S]*?`), emit the
occurrence, and continue after the match (`lastIndex`). An opening fence with
no closing fence afterwards yields nothing (the regex cannot complete a match
anywhere later either, since any later opening would also need a closing fence
after it). -/
def extractAux (s : List Char) (base : Nat) : List Occ :=
  match h1 : findSub OPEN s with
  | none => []
  | some p =>
      let rest := s.drop (p + OPEN.length)
      match findSub CLOSE rest with
      | none => []
      | some q =>
          { original := (s.drop p).take (OPEN.length + q + CLOSE.length),
            code := trim (rest.take q),
            index := base + p } ::
            extractAux (rest.drop (q + CLOSE.length))
              (base + p + OPEN.length + q + CLOSE.length)
termination_by s.length
decreasing_by
  have hb := findSub_bound h1
  simp only [List.length_drop]
  simp only [OPEN, List.length_cons] at hb ⊢
  omega

/-- The diagram extraction of `processMermaidDiagrams` over a whole document. -/
def extractMermaid (s : List Char) : List Occ :=
  extractAux s 0

/-- The splice of the rewrite loop:
`processedContent.substring(0, idx) + repl + processedContent.substring(idx + len)`. -/
def spliceAt (s : List Char) (idx len : Nat) (repl : List Char) : List Char :=
  s.take idx ++ repl ++ s.drop (idx + len)

/-- The image markup substituted for a successfully rendered diagram:
`![Mermaid Diagram](data:image/png;base64,<b64>)`. -/
def imageTag (b64 : List Char) : List Char :=
  "![Mermaid Diagram](data:image/png;base64,".data ++ b64 ++ ")".data

/-- A diagram occurrence together with its render outcome: `some repl` when
`renderMermaidToImage` succeeded (and `repl` is the image markup spliced in),
`none` when it threw (the catch block keeps the original text). -/
abbrev RPair := Occ × Option (List Char)

/-- The `for (let i = diagrams.length - 1; i >= 0; i--)` loop of
`processMermaidDiagrams`, on the suffix of the diagram list that still has to
be processed.  The list is in ascending document order, and the loop walks it
from the back, so the head of the sublist is processed *after* all of its
tail: its absolute position is `total - (rest.length + 1)`, hence the
`total - i` of the source is `rest.length + 1`.  Returns the rewritten text
and, in emission order, the progress events passed to `updateProgress`, each
as `(value, k)` where `value` is the progress argument
`Math.min(start + Math.floor(span * k / total), end)` and `k` abbreviates the
message `Rendered diagram k/total`. -/
def renderLoopAux (st en total : Nat) :
    List RPair → List Char → List Char × List (Nat × Nat)
  | [], s => (s, [])
  | (d, out) :: rest, s =>
      let r := renderLoopAux st en total rest s
      match out with
      | some repl =>
          let k := rest.length + 1
          let evs :=
            if 0 < total then [(min (st + ((en - st) * k) / total) en, k)]
            else []
          (spliceAt r.1 d.index d.original.length repl, r.2 ++ evs)
      | none => r

/-- `processMermaidDiagrams(markdownContent, format, { jobId, start, end })`:
for `format === 'html'` it emits one `updateProgress(jobId, start, ...)` event
(encoded `(st, 0)`) and returns the content untouched; otherwise it extracts
the diagrams, renders each (the oracle `render` maps a diagram's code to its
base64 image, or `none` on failure) and splices in descending-offset order. -/
def processMermaid (content : List Char) (format : List Char)
    (render : List Char → Option (List Char)) (st en : Nat) :
    List Char × List (Nat × Nat) :=
  if format = "html".data then (content, [(st, 0)])
  else
    let pairs : List RPair :=
      (extractMermaid content).map (fun d => (d, (render d.code).map imageTag))
    renderLoopAux st en pairs.length pairs content

/-- The pure text effect of the render loop: splice the replacement of each
successful pair, last (highest-offset) occurrence first. -/
def rewriteDiagrams : List RPair → List Char → List Char
  | [], s => s
  | (d, out) :: rest, s =>
      let r := rewriteDiagrams rest s
      match out with
      | some repl => spliceAt r d.index d.original.length repl
      | none => r

/-- Shift every occurrence's offset down by `m` (used to re-express a rewrite
of `a ++ b` as a rewrite of `b` when every span lies inside `b`). -/
def shiftPairs (m : Nat) (ps : List RPair) : List RPair :=
  ps.map (fun p => ({ p.1 with index := p.1.index - m }, p.2))

/-- The specified output of the Rewriter: the original text outside the spans,
kept verbatim segment by segment, each successful span replaced by its image
markup and each failed span kept as the original text of that span. -/
def expectedRewrite : List RPair → List Char → List Char
  | [], s => s
  | (d, out) :: rest, s =>
      s.take d.index ++
        (match out with
          | some repl => repl
          | none => (s.drop d.index).take d.original.length) ++
        expectedRewrite (shiftPairs (d.index + d.original.length) rest)
          (s.drop (d.index + d.original.length))
termination_by ps => ps.length
decreasing_by
  simp only [shiftPairs, List.length_map, List.length_cons]
  omega

theorem expectedRewrite_nil (s : List Char) : expectedRewrite [] s = s := by
  rw [expectedRewrite.eq_def]

theorem expectedRewrite_cons (d : Occ) (out : Option (List Char))
    (rest : List RPair) (s : List Char) :
    expectedRewrite ((d, out) :: rest) s =
      s.take d.index ++
        (match out with
          | some repl => repl
          | none => (s.drop d.index).take d.original.length) ++
        expectedRewrite (shiftPairs (d.index + d.original.length) rest)
          (s.drop (d.index + d.original.length)) := by
  conv_lhs => rw [expectedRewrite.eq_def]

/-- Spans of the occurrence list are in ascending order, pairwise disjoint,
start at or after `lo`, and end at or before `n`. -/
def occsValid (lo n : Nat) : List Occ → Bool
  | [] => true
  | d :: rest =>
      decide (lo ≤ d.index) && decide (d.index + d.original.length ≤ n) &&
        occsValid (d.index + d.original.length) n rest

/-- Validity of a pair list is validity of its occurrences. -/
def pairsValid (lo n : Nat) (ps : List RPair) : Bool :=
  occsValid lo n (ps.map Prod.fst)

theorem spliceAt_append {a : List Char} (r repl : List Char) {idx : Nat}
    (len : Nat) (h : a.length ≤ idx) :
    spliceAt (a ++ r) idx len repl = a ++ spliceAt r (idx - a.length) len repl := by
  unfold spliceAt
  rw [List.take_append_eq_append_take, List.drop_append_eq_append_drop]
  rw [List.take_of_length_le (by omega), List.drop_eq_nil_of_le (by omega)]
  have : idx + len - a.length = idx - a.length + len := by omega
  simp [this]

theorem occsValid_lower {lo n : Nat} :
    ∀ {os : List Occ}, occsValid lo n os = true → ∀ d ∈ os, lo ≤ d.index := by
  intro os
  induction os generalizing lo with
  | nil => intro _ d hd; cases hd
  | cons d0 rest ih =>
      intro h d hd
      unfold occsValid at h
      simp only [Bool.and_eq_true, decide_eq_true_eq] at h
      rcases List.mem_cons.mp hd with hd | hd
      · subst hd; exact h.1.1
      · exact le_trans (by omega) (ih h.2 d hd)

theorem occsValid_shift {m : Nat} :
    ∀ {os : List Occ} {lo n : Nat}, m ≤ lo → occsValid lo n os = true →
      occsValid (lo - m) (n - m)
        (os.map (fun d => { d with index := d.index - m })) = true := by
  intro os
  induction os with
  | nil => intro lo n _ _; rfl
  | cons d0 rest ih =>
      intro lo n hm h
      unfold occsValid at h
      simp only [Bool.and_eq_true, decide_eq_true_eq] at h
      obtain ⟨⟨h1, h2⟩, h3⟩ := h
      unfold occsValid
      simp only [List.map_cons, Bool.and_eq_true, decide_eq_true_eq]
      refine ⟨⟨by omega, by omega⟩, ?_⟩
      have hrec := @ih (d0.index + d0.original.length) n (by omega) h3
      simp only [show d0.index - m + d0.original.length =
        d0.index + d0.original.length - m by omega]
      exact hrec

theorem pairsValid_lower {lo n : Nat} {ps : List RPair}
    (h : pairsValid lo n ps = true) : ∀ p ∈ ps, lo ≤ p.1.index := by
  intro p hp
  exact occsValid_lower h p.1 (List.mem_map_of_mem _ hp)

theorem rewriteDiagrams_split (ps : List RPair) (a b : List Char)
    (hlo : ∀ p ∈ ps, a.length ≤ p.1.index) :
    rewriteDiagrams ps (a ++ b) =
      a ++ rewriteDiagrams (shiftPairs a.length ps) b := by
  induction ps with
  | nil => simp [rewriteDiagrams, shiftPairs]
  | cons p rest ih =>
      obtain ⟨d, out⟩ := p
      have hrest : ∀ p ∈ rest, a.length ≤ p.1.index := by
        intro p hp; exact hlo p (List.mem_cons_of_mem _ hp)
      have hd : a.length ≤ d.index := hlo (d, out) (List.mem_cons_self _ _)
      cases out with
      | none =>
          simp only [rewriteDiagrams, shiftPairs, List.map_cons]
          exact ih hrest
      | some repl =>
          simp only [rewriteDiagrams, shiftPairs, List.map_cons]
          rw [ih hrest]
          exact spliceAt_append _ _ _ hd

theorem rewriteDiagrams_eq_expected_aux (n : Nat) :
    ∀ ps : List RPair, ∀ s : List Char, ps.length ≤ n →
      pairsValid 0 s.length ps = true →
      rewriteDiagrams ps s = expectedRewrite ps s := by
  induction n with
  | zero =>
      intro ps s hn _
      have : ps = [] := List.length_eq_zero.mp (by omega)
      subst this
      simp [rewriteDiagrams, expectedRewrite]
  | succ n ih =>
      intro ps s hn hv
      match ps with
      | [] => simp [rewriteDiagrams, expectedRewrite]
      | (d, out) :: rest =>
          unfold pairsValid occsValid at hv
          simp only [List.map_cons, Bool.and_eq_true, decide_eq_true_eq] at hv
          obtain ⟨⟨_, hend⟩, hrest⟩ := hv
          set m := d.index + d.original.length with hm
          have htk : (s.take m).length = m := by simp; omega
          have hsplit : s = s.take m ++ s.drop m := (List.take_append_drop m s).symm
          have hlo : ∀ p ∈ rest, (s.take m).length ≤ p.1.index := by
            intro p hp
            rw [htk]
            exact occsValid_lower hrest p.1 (List.mem_map_of_mem _ hp)
          have hsh : rewriteDiagrams rest s =
              s.take m ++ rewriteDiagrams (shiftPairs m rest) (s.drop m) := by
            conv_lhs => rw [hsplit]
            rw [rewriteDiagrams_split rest _ _ hlo, htk]
          have hvsh : pairsValid 0 (s.drop m).length (shiftPairs m rest) = true := by
            unfold pairsValid
            have : (shiftPairs m rest).map Prod.fst =
                (rest.map Prod.fst).map (fun d => { d with index := d.index - m }) := by
              simp [shiftPairs, Function.comp]
            rw [this]
            have := occsValid_shift (m := m) (le_refl m) hrest
            simpa using this
          have hih : rewriteDiagrams (shiftPairs m rest) (s.drop m) =
              expectedRewrite (shiftPairs m rest) (s.drop m) := by
            apply ih _ _ _ hvsh
            simp only [shiftPairs, List.length_map]
            simpa using Nat.le_of_succ_le_succ hn
          cases out with
          | none =>
              show rewriteDiagrams rest s = expectedRewrite ((d, none) :: rest) s
              rw [hsh, hih, expectedRewrite_cons, ← hm]
              have hts : s.take m =
                  s.take d.index ++ (s.drop d.index).take d.original.length := by
                rw [hm, List.take_add]
              rw [hts]
          | some repl =>
              show spliceAt (rewriteDiagrams rest s) d.index d.original.length repl =
                expectedRewrite ((d, some repl) :: rest) s
              rw [hsh, hih, expectedRewrite_cons, ← hm]
              unfold spliceAt
              rw [List.take_append_eq_append_take, List.drop_append_eq_append_drop]
              have h1 : (s.take m).take d.index = s.take d.index := by
                rw [List.take_take]; congr 1; omega
              have h2 : (s.take m).drop (d.index + d.original.length) = [] :=
                List.drop_eq_nil_of_le (by rw [htk])
              have h3 : d.index - (s.take m).length = 0 := by rw [htk]; omega
              have h4 : d.index + d.original.length - (s.take m).length = 0 := by
                rw [htk]; omega
              rw [h2, h3, h4]
              simp [h1]

/-- Master Rewriter lemma: under valid spans, the splice loop produces exactly
the segment-wise expected output. -/
theorem rewriteDiagrams_eq_expected (ps : List RPair) (s : List Char)
    (hv : pairsValid 0 s.length ps = true) :
    rewriteDiagrams ps s = expectedRewrite ps s :=
  rewriteDiagrams_eq_expected_aux ps.length ps s (le_refl _) hv

theorem renderLoopAux_fst (st en total : Nat) :
    ∀ (ps : List RPair) (s : List Char),
      (renderLoopAux st en total ps s).1 = rewriteDiagrams ps s := by
  intro ps
  induction ps with
  | nil => intro s; rfl
  | cons p rest ih =>
      intro s
      obtain ⟨d, out⟩ := p
      cases out with
      | none => simpa [renderLoopAux, rewriteDiagrams] using ih s
      | some repl => simp [renderLoopAux, rewriteDiagrams, ih s]

theorem extractAux_none {s : List Char} (base : Nat)
    (h : findSub OPEN s = none) : extractAux s base = [] := by
  rw [extractAux.eq_def, h]

theorem extractAux_noclose {s : List Char} (base : Nat) {p : Nat}
    (h1 : findSub OPEN s = some p)
    (h2 : findSub CLOSE (s.drop (p + OPEN.length)) = none) :
    extractAux s base = [] := by
  rw [extractAux.eq_def, h1]
  simp only [h2]

theorem extractAux_cons {s : List Char} (base : Nat) {p q : Nat}
    (h1 : findSub OPEN s = some p)
    (h2 : findSub CLOSE (s.drop (p + OPEN.length)) = some q) :
    extractAux s base =
      { original := (s.drop p).take (OPEN.length + q + CLOSE.length),
        code := trim ((s.drop (p + OPEN.length)).take q),
        index := base + p } ::
        extractAux ((s.drop (p + OPEN.length)).drop (q + CLOSE.length))
          (base + p + OPEN.length + q + CLOSE.length) := by
  rw [extractAux.eq_def, h1]
  simp only [h2]

theorem extractAux_spec (n : Nat) :
    ∀ s base, s.length ≤ n →
      occsValid base (base + s.length) (extractAux s base) = true ∧
      ∀ d ∈ extractAux s base,
        (s.drop (d.index - base)).take d.original.length = d.original := by
  induction n with
  | zero =>
      intro s base hn
      have hs : s = [] := List.length_eq_zero.mp (by omega)
      subst hs
      have hnone : findSub OPEN ([] : List Char) = none := by rfl
      rw [extractAux_none base hnone]
      exact ⟨rfl, by intro d hd; cases hd⟩
  | succ n ih =>
      intro s base hn
      cases h1 : findSub OPEN s with
      | none =>
          rw [extractAux_none base h1]
          exact ⟨rfl, by intro d hd; cases hd⟩
      | some p =>
          cases h2 : findSub CLOSE (s.drop (p + OPEN.length)) with
          | none =>
              rw [extractAux_noclose base h1 h2]
              exact ⟨rfl, by intro d hd; cases hd⟩
          | some q =>
              rw [extractAux_cons base h1 h2]
              have hp := findSub_bound h1
              have hq := findSub_bound h2
              simp only [List.length_drop] at hq
              have hOP : OPEN.length = 11 := rfl
              have hCL : CLOSE.length = 3 := rfl
              rw [hOP] at hp
              rw [hOP, hCL] at hq
              -- the whole fence fits in the document
              have hfit : p + 11 + q + 3 ≤ s.length := by omega
              have horig : ((s.drop p).take (OPEN.length + q + CLOSE.length)).length
                  = 11 + q + 3 := by
                simp only [List.length_take, List.length_drop, hOP, hCL]
                omega
              -- the recursive suffix
              have hdd : (s.drop (p + OPEN.length)).drop (q + CLOSE.length)
                  = s.drop (p + 11 + q + 3) := by
                rw [List.drop_drop, hOP, hCL]
                congr 1
              set base' := base + p + OPEN.length + q + CLOSE.length with hbase'
              have hbase'' : base' = base + p + 11 + q + 3 := by
                rw [hbase', hOP, hCL]
              have hlen' : ((s.drop (p + OPEN.length)).drop (q + CLOSE.length)).length
                  = s.length - (p + 11 + q + 3) := by
                rw [hdd, List.length_drop]
              obtain ⟨ihv, ihc⟩ := ih ((s.drop (p + OPEN.length)).drop (q + CLOSE.length))
                base' (by rw [hlen']; omega)
              constructor
              · unfold occsValid
                simp only [Bool.and_eq_true, decide_eq_true_eq]
                refine ⟨⟨by omega, ?_⟩, ?_⟩
                · rw [horig]; omega
                · rw [horig]
                  have heq : base + p + (11 + q + 3) = base' := by omega
                  have heq2 : base' + ((s.drop (p + OPEN.length)).drop
                      (q + CLOSE.length)).length = base + s.length := by
                    rw [hlen']; omega
                  rw [heq, ← heq2]
                  exact ihv
              · intro d hd
                rcases List.mem_cons.mp hd with hd | hd
                · subst hd
                  show (s.drop (base + p - base)).take
                      ((s.drop p).take (OPEN.length + q + CLOSE.length)).length
                    = (s.drop p).take (OPEN.length + q + CLOSE.length)
                  rw [show base + p - base = p by omega, horig, hOP, hCL]
                · have hlow : base' ≤ d.index :=
                    occsValid_lower ihv d hd
                  have hc := ihc d hd
                  rw [List.drop_drop] at hc
                  have harith : p + OPEN.length
                      + (q + CLOSE.length + (d.index - base')) = d.index - base := by
                    rw [hOP, hCL]; omega
                  rw [List.drop_drop, harith] at hc
                  exact hc

theorem headMatch_self (p : List Char) : headMatch p p = true :=
  (headMatch_iff_take p p).mpr (List.take_length p)

theorem OPEN_eq : OPEN = OPENinit ++ ['\n'] := rfl

theorem CLOSE_eq : CLOSE = [bt, bt] ++ [bt] := rfl

/-- If a pattern occurs nowhere in `a ++ init` (where `init` is the pattern
minus its last character), then it occurs nowhere in `a ++ (init ++ c :: t)`
at a position strictly before `a.length`. -/
theorem no_straddle (pat a init : List Char) (c : Char) (t : List Char)
    (hlen : init.length + 1 = pat.length)
    (h : hasSub pat (a ++ init) = false) :
    ∀ j, j < a.length → matchAt pat (a ++ (init ++ c :: t)) j = false := by
  intro j hj
  have hnone := findSub_eq_none (hasSub_false_iff.mp h)
  have hsplit : a ++ (init ++ c :: t) = (a ++ init) ++ (c :: t) := by
    simp [List.append_assoc]
  rw [hsplit, matchAt_append_left (c :: t)
    (by simp only [List.length_append]; omega)]
  exact hnone j

/-- The leftmost occurrence of the opening fence in `gap ++ OPEN ++ t` is at
`gap.length`, provided no occurrence starts inside `gap`. -/
theorem findSub_gap_open (gap t : List Char)
    (hg : hasSub OPEN (gap ++ OPENinit) = false) :
    findSub OPEN (gap ++ (OPEN ++ t)) = some gap.length := by
  apply findSub_of_min
  · have : matchAt OPEN (gap ++ (OPEN ++ t)) (gap.length + 0) =
        matchAt OPEN (OPEN ++ t) 0 := matchAt_append_right _ _ _ _
    simp only [Nat.add_zero] at this
    rw [this]
    unfold matchAt
    rw [List.drop_zero, headMatch_append t (le_refl _)]
    exact headMatch_self OPEN
  · intro j hj
    have := no_straddle OPEN gap OPENinit '\n' t (by rfl) hg j hj
    simpa [OPEN_eq, List.append_assoc] using this

/-- The leftmost occurrence of the closing fence in `body ++ CLOSE ++ t` is at
`body.length`, provided no occurrence starts inside `body`. -/
theorem findSub_body_close (body t : List Char)
    (hb : hasSub CLOSE (body ++ [bt, bt]) = false) :
    findSub CLOSE (body ++ (CLOSE ++ t)) = some body.length := by
  apply findSub_of_min
  · have : matchAt CLOSE (body ++ (CLOSE ++ t)) (body.length + 0) =
        matchAt CLOSE (CLOSE ++ t) 0 := matchAt_append_right _ _ _ _
    simp only [Nat.add_zero] at this
    rw [this]
    unfold matchAt
    rw [List.drop_zero, headMatch_append t (le_refl _)]
    exact headMatch_self CLOSE
  · intro j hj
    have := no_straddle CLOSE body [bt, bt] bt t (by rfl) hb j hj
    simpa [CLOSE_eq, List.append_assoc] using this

/-- A document as an interleaving of non-fence segments and mermaid fences:
`gap₀ ++ OPEN ++ body₀ ++ CLOSE ++ gap₁ ++ OPEN ++ body₁ ++ CLOSE ++ … ++ g`. -/
def mkDoc : List (List Char × List Char) → List Char → List Char
  | [], g => g
  | (gap, body) :: rest, g => gap ++ (OPEN ++ (body ++ (CLOSE ++ mkDoc rest g)))

/-- The occurrences the Extractor must produce for such a document. -/
def expectedOccs : List (List Char × List Char) → Nat → List Occ
  | [], _ => []
  | (gap, body) :: rest, base =>
      { original := OPEN ++ body ++ CLOSE, code := trim body,
        index := base + gap.length } ::
        expectedOccs rest
          (base + gap.length + OPEN.length + body.length + CLOSE.length)

/-- Total length of the fenced region of the document (everything before the
trailing segment). -/
def fencesLen : List (List Char × List Char) → Nat
  | [] => 0
  | (gap, body) :: rest =>
      gap.length + OPEN.length + body.length + CLOSE.length + fencesLen rest

/-- The side conditions making the fences well-formed and non-overlapping: no
opening fence starts inside a gap (or straddles into the following opening's
text), and no closing fence starts inside a body (or straddles into the
body's own closing fence). -/
def fencesOk : List (List Char × List Char) → Bool
  | [] => true
  | (gap, body) :: rest =>
      !hasSub OPEN (gap ++ OPENinit) && !hasSub CLOSE (body ++ [bt, bt]) &&
        fencesOk rest

theorem extractAux_mkDoc :
    ∀ (ps : List (List Char × List Char)) (g : List Char) (base : Nat),
      fencesOk ps = true →
      extractAux (mkDoc ps g) base =
        expectedOccs ps base ++ extractAux g (base + fencesLen ps) := by
  intro ps
  induction ps with
  | nil =>
      intro g base _
      simp [mkDoc, expectedOccs, fencesLen]
  | cons pb rest ih =>
      intro g base hok
      obtain ⟨gap, body⟩ := pb
      unfold fencesOk at hok
      simp only [Bool.and_eq_true, Bool.not_eq_true'] at hok
      obtain ⟨⟨hgap, hbody⟩, hrest⟩ := hok
      have hdoc : mkDoc ((gap, body) :: rest) g =
          gap ++ (OPEN ++ (body ++ (CLOSE ++ mkDoc rest g))) := rfl
      rw [hdoc]
      have h1 : findSub OPEN (gap ++ (OPEN ++ (body ++ (CLOSE ++ mkDoc rest g))))
          = some gap.length := findSub_gap_open _ _ hgap
      have hdrop1 : (gap ++ (OPEN ++ (body ++ (CLOSE ++ mkDoc rest g)))).drop
          (gap.length + OPEN.length) = body ++ (CLOSE ++ mkDoc rest g) := by
        rw [show gap ++ (OPEN ++ (body ++ (CLOSE ++ mkDoc rest g)))
            = (gap ++ OPEN) ++ (body ++ (CLOSE ++ mkDoc rest g)) by
          simp [List.append_assoc]]
        rw [show gap.length + OPEN.length = (gap ++ OPEN).length by
          simp [List.length_append]]
        exact List.drop_left _ _
      have h2 : findSub CLOSE ((gap ++ (OPEN ++ (body ++ (CLOSE ++ mkDoc rest g)))).drop
          (gap.length + OPEN.length)) = some body.length := by
        rw [hdrop1]
        exact findSub_body_close _ _ hbody
      rw [extractAux_cons base h1 h2]
      have hdropg : (gap ++ (OPEN ++ (body ++ (CLOSE ++ mkDoc rest g)))).drop
          gap.length = OPEN ++ (body ++ (CLOSE ++ mkDoc rest g)) :=
        List.drop_left _ _
      have horig2 : (OPEN ++ (body ++ (CLOSE ++ mkDoc rest g))).take
          (OPEN.length + body.length + CLOSE.length) = OPEN ++ body ++ CLOSE := by
        rw [show OPEN ++ (body ++ (CLOSE ++ mkDoc rest g))
            = (OPEN ++ body ++ CLOSE) ++ mkDoc rest g by simp [List.append_assoc]]
        rw [show OPEN.length + body.length + CLOSE.length
            = (OPEN ++ body ++ CLOSE).length by simp [List.length_append]; omega]
        rw [List.take_left]
      have hcode : (body ++ (CLOSE ++ mkDoc rest g)).take body.length = body :=
        List.take_left _ _
      have htail : (body ++ (CLOSE ++ mkDoc rest g)).drop
          (body.length + CLOSE.length) = mkDoc rest g := by
        rw [show body ++ (CLOSE ++ mkDoc rest g)
            = (body ++ CLOSE) ++ mkDoc rest g by simp [List.append_assoc]]
        rw [show body.length + CLOSE.length = (body ++ CLOSE).length by
          simp [List.length_append]]
        rw [List.drop_left]
      rw [hdropg, horig2, hdrop1, hcode, htail]
      unfold expectedOccs
      rw [List.cons_append]
      congr 1
      rw [ih g _ hrest]
      congr 2
      simp only [fencesLen]
      omega

theorem extract_valid (s : List Char) :
    occsValid 0 s.length (extractMermaid s) = true ∧
      ∀ d ∈ extractMermaid s,
        (s.drop d.index).take d.original.length = d.original := by
  obtain ⟨h1, h2⟩ := extractAux_spec s.length s 0 (le_refl _)
  refine ⟨by simpa using h1, ?_⟩
  intro d hd
  have := h2 d hd
  simpa using this

theorem expectedOccs_length (ps : List (List Char × List Char)) :
    ∀ base, (expectedOccs ps base).length = ps.length := by
  induction ps with
  | nil => intro base; rfl
  | cons pb rest ih =>
      intro base
      obtain ⟨gap, body⟩ := pb
      simp only [expectedOccs, List.length_cons, ih]

theorem expectedOccs_ascending (ps : List (List Char × List Char)) :
    ∀ base, List.Chain' (fun a b => a.index < b.index) (expectedOccs ps base) := by
  induction ps with
  | nil => intro base; simp [expectedOccs]
  | cons pb rest ih =>
      intro base
      obtain ⟨gap, body⟩ := pb
      unfold expectedOccs
      rw [List.chain'_cons']
      refine ⟨?_, ih _⟩
      intro h hh
      cases rest with
      | nil => simp [expectedOccs] at hh
      | cons pb2 rest2 =>
          obtain ⟨gap2, body2⟩ := pb2
          unfold expectedOccs at hh
          simp only [List.head?_cons, Option.mem_def, Option.some.injEq] at hh
          subst hh
          simp only [OPEN, CLOSE, List.length_cons, List.length_nil]
          omega

/-! ## Job registry (`jobs` Map, `initJob`, `updateProgress`, `completeJob`) -/

inductive JobStatus
  | pending
  | done
  deriving DecidableEq, Repr

/-- One entry of the `jobs` map:
`{ progress: 0, message: 'Starting', subscribers: new Set(), status: 'pending' }`.
The float `progress` only ever holds the integer result of the clamp, so it is
an `Int`; subscriber response channels are opaque tokens. -/
structure Job where
  progress : Int
  message : List Char
  status : JobStatus
  subscribers : List Nat
  deriving DecidableEq, Repr

/-- The process-wide `jobs` Map, keyed by job id (an opaque token). -/
abbrev Registry := List (Nat × Job)

def findJob (reg : Registry) (id : Nat) : Option Job :=
  (reg.find? (fun p => p.1 == id)).map Prod.snd

/-- `jobs.set(id, j)`: replace the binding if present, else add it. -/
def setJob (reg : Registry) (id : Nat) (j : Job) : Registry :=
  match reg with
  | [] => [(id, j)]
  | (k, j0) :: rest =>
      if k = id then (k, j) :: rest else (k, j0) :: setJob rest id j

/-- `initJob(jobId)`: no-op on a nil id; create the fresh pending job only if
the id is not yet in the registry. -/
def initJob (reg : Registry) (jobId : Option Nat) : Registry :=
  match jobId with
  | none => reg
  | some id =>
      match findJob reg id with
      | some _ => reg
      | none =>
          setJob reg id
            { progress := 0, message := "Starting".data,
              status := .pending, subscribers := [] }

/-- A `res.write` of one SSE payload: `(channel, progress, message)`. -/
abbrev PushEvent := Nat × Int × List Char

/-- `updateProgress(jobId, progress, message)`: no-op on nil or unknown id;
otherwise store `Math.max(0, Math.min(100, Math.floor(progress)))`, replace
the message only when truthy (non-empty), and push the new state to every
current subscriber. -/
def updateProgress (reg : Registry) (jobId : Option Nat) (progress : ℚ)
    (message : List Char) : Registry × List PushEvent :=
  match jobId with
  | none => (reg, [])
  | some id =>
      match findJob reg id with
      | none => (reg, [])
      | some job =>
          let p := max 0 (min 100 (Rat.floor progress))
          let msg := if message.isEmpty then job.message else message
          let job' := { job with progress := p, message := msg }
          (setJob reg id job', job'.subscribers.map (fun c => (c, p, msg)))

/-- Timed actions of `completeJob`'s `setTimeout` chain, as a trace of
`(milliseconds after the call, action)` pairs. -/
inductive TAct
  | push (chan : Nat) (progress : Int) (message : List Char)
  | closeChan (chan : Nat)
  | clearSubs (id : Nat)
  | deleteJob (id : Nat)
  deriving DecidableEq, Repr

/-- `completeJob(jobId)`: no-op on nil or unknown id; otherwise mark the job
done, push the final `100 / 'Done'` state immediately (time 0), and schedule:
at 250ms close every subscriber channel and clear the subscriber set, and
60000ms after that delete the job from the registry.  The returned registry
is the immediate state; the deferred mutations appear only in the trace. -/
def completeJob (reg : Registry) (jobId : Option Nat) :
    Registry × List (Nat × TAct) :=
  match jobId with
  | none => (reg, [])
  | some id =>
      match findJob reg id with
      | none => (reg, [])
      | some job =>
          let reg1 := setJob reg id { job with status := .done }
          let upd := updateProgress reg1 (some id) 100 "Done".data
          (upd.1,
            upd.2.map (fun e => (0, TAct.push e.1 e.2.1 e.2.2))
              ++ job.subscribers.map (fun c => (250, TAct.closeChan c))
              ++ [(250, TAct.clearSubs id), (250 + 60000, TAct.deleteJob id)])

theorem findJob_setJob_self (reg : Registry) (id : Nat) (j : Job) :
    findJob (setJob reg id j) id = some j := by
  induction reg with
  | nil => simp [setJob, findJob, List.find?]
  | cons kj rest ih =>
      obtain ⟨k, j0⟩ := kj
      by_cases hk : k = id
      · subst hk
        simp [setJob, findJob, List.find?]
      · simp only [setJob, if_neg hk]
        unfold findJob
        rw [List.find?_cons_of_neg _ (by simpa using hk)]
        exact ih

theorem setJob_setJob (reg : Registry) (id : Nat) (a b : Job) :
    setJob (setJob reg id a) id b = setJob reg id b := by
  induction reg with
  | nil => simp [setJob]
  | cons kj rest ih =>
      obtain ⟨k, j0⟩ := kj
      by_cases hk : k = id
      · subst hk; simp [setJob]
      · simp [setJob, if_neg hk, ih]

theorem updateProgress_found {reg : Registry} {id : Nat} {job : Job}
    (h : findJob reg id = some job) (q : ℚ) (msg : List Char) :
    updateProgress reg (some id) q msg =
      (setJob reg id
        { job with progress := max 0 (min 100 (Rat.floor q)),
                   message := if msg.isEmpty then job.message else msg },
       job.subscribers.map
         (fun c => (c, max 0 (min 100 (Rat.floor q)),
                    if msg.isEmpty then job.message else msg))) := by
  simp only [updateProgress, h]

/-! ## The `/convert` handler: validation prelude and catch block -/

/-- The request fields the validation prelude of `app.post('/convert')`
inspects: whether a file was uploaded, the requested `format` string, and the
optional `jobId`. -/
structure ConvertReq where
  hasFile : Bool
  format : List Char
  jobId : Option Nat

inductive PreOutcome
  | badRequest (msg : List Char)
  | proceed
  deriving DecidableEq, Repr

/-- `['html', 'pdf', 'docx'].includes(format)`. -/
def validFormat (f : List Char) : Bool :=
  f == "html".data || f == "pdf".data || f == "docx".data

/-- The prelude of the `/convert` handler, in source order: reject when no
file was uploaded; then, when a `jobId` is supplied, `initJob(jobId)` and
`updateProgress(jobId, 1, 'Upload received')`; only then reject an invalid
format. -/
def convertPrelude (reg : Registry) (r : ConvertReq) : Registry × PreOutcome :=
  if !r.hasFile then (reg, .badRequest "No file uploaded".data)
  else
    let reg1 :=
      match r.jobId with
      | none => reg
      | some id =>
          (updateProgress (initJob reg (some id)) (some id) 1
            "Upload received".data).1
    if !validFormat r.format then (reg1, .badRequest "Invalid format".data)
    else (reg1, .proceed)

/-- The catch block of the `/convert` handler:
`updateProgress(jobId, 100, 'Error')` and an HTTP 500 — and nothing else: in
particular no `completeJob`, so the returned timed-action trace is empty (no
channel close, no subscriber-set clear, no registry eviction is scheduled). -/
def convertCatch (reg : Registry) (jobId : Option Nat) :
    Registry × List PushEvent × List (Nat × TAct) :=
  let u := updateProgress reg jobId 100 "Error".data
  (u.1, u.2, [])

/-! ## Shared helper lemmas for the claim theorems -/

/-- The extraction pairs of a document always have valid (ascending, disjoint,
in-bounds) spans. -/
theorem pairsValid_extract (content : List Char)
    (render : List Char → Option (List Char)) :
    pairsValid 0 content.length
      ((extractMermaid content).map
        (fun d => (d, (render d.code).map imageTag))) = true := by
  unfold pairsValid
  rw [List.map_map]
  have : (Prod.fst ∘ fun d => (d, (render d.code).map imageTag))
      = fun d : Occ => d := rfl
  rw [this]
  rw [show (List.map (fun d : Occ => d) (extractMermaid content))
      = extractMermaid content from List.map_id _]
  exact (extract_valid content).1

/-- For a non-HTML target, the text produced by `processMermaidDiagrams` is
the expected segment-wise rewrite of the extracted diagrams. -/
theorem processMermaid_eq_expected (content : List Char)
    (render : List Char → Option (List Char)) (st en : Nat)
    (fmt : List Char) (hfmt : fmt ≠ "html".data) :
    (processMermaid content fmt render st en).1 =
      expectedRewrite
        ((extractMermaid content).map
          (fun d => (d, (render d.code).map imageTag))) content := by
  unfold processMermaid
  rw [if_neg hfmt]
  rw [renderLoopAux_fst]
  exact rewriteDiagrams_eq_expected _ _ (pairsValid_extract content render)

/-- Shape of every progress event emitted by the render loop. -/
theorem renderLoopAux_events (st en total : Nat) :
    ∀ (ps : List RPair) (s : List Char),
      ∀ e ∈ (renderLoopAux st en total ps s).2,
        e.1 = min (st + ((en - st) * e.2) / total) en ∧
          1 ≤ e.2 ∧ e.2 ≤ ps.length := by
  intro ps
  induction ps with
  | nil => intro s e he; cases he
  | cons p rest ih =>
      intro s e he
      obtain ⟨d, out⟩ := p
      cases out with
      | none =>
          have := ih s e (by simpa [renderLoopAux] using he)
          exact ⟨this.1, this.2.1, le_trans this.2.2 (by simp)⟩
      | some repl =>
          simp only [renderLoopAux, List.mem_append] at he
          rcases he with he | he
          · have := ih s e he
            exact ⟨this.1, this.2.1, le_trans this.2.2 (by simp)⟩
          · by_cases ht : 0 < total
            · rw [if_pos ht] at he
              simp only [List.mem_singleton] at he
              subst he
              exact ⟨rfl, by simp, by simp⟩
            · rw [if_neg ht] at he
              cases he

/-- After `initJob` on a supplied id the job exists. -/
theorem findJob_initJob (reg : Registry) (id : Nat) :
    findJob (initJob reg (some id)) id ≠ none := by
  unfold initJob
  cases h : findJob reg id with
  | some j => simp [h]
  | none => simp [h, findJob_setJob_self]

/-! ## Claim theorems -/

/-- C1: for every Markdown document, every extracted diagram occurrence list
(processed by the loop in descending start-offset order) and every
success/failure assignment of the renders (the oracle `render`), the text
produced by `processMermaidDiagrams` for a non-HTML target equals
`expectedRewrite` of the extraction: the original text outside the diagram
spans, kept verbatim segment by segment (`s.take d.index` pieces and the
final suffix), with only the spans of successfully rendered diagrams replaced
by their image markup — a failed span contributes its own original text. -/
theorem mermaid_rewrite_outside_text_preserved (content : List Char)
    (render : List Char → Option (List Char)) (st en : Nat)
    (fmt : List Char) (hfmt : fmt ≠ "html".data) :
    (processMermaid content fmt render st en).1 =
      expectedRewrite
        ((extractMermaid content).map
          (fun d => (d, (render d.code).map imageTag))) content :=
  processMermaid_eq_expected content render st en fmt hfmt

theorem mermaid_rewrite_outside_text_preserved_witness :
    ("pdf".data ≠ "html".data) ∧
      (processMermaid "no diagrams here".data "pdf".data (fun _ => none) 5 60).1 =
        expectedRewrite
          ((extractMermaid "no diagrams here".data).map
            (fun d => (d, ((fun _ : List Char => (none : Option (List Char)))
              d.code).map imageTag))) "no diagrams here".data :=
  ⟨by decide,
   mermaid_rewrite_outside_text_preserved "no diagrams here".data
     (fun _ => none) 5 60 "pdf".data (by decide)⟩

/-- C9: for the `html` format, `processMermaidDiagrams` returns the input
text exactly unchanged — the rewriting step is skipped entirely. -/
theorem html_format_passthrough (content : List Char)
    (render : List Char → Option (List Char)) (st en : Nat) :
    (processMermaid content "html".data render st en).1 = content := by
  simp [processMermaid]

/-- C2: a document built of `N` well-formed, non-overlapping mermaid fences
(`mkDoc ps g`, with the `fencesOk` side conditions saying no fence opening
starts inside a gap and no fence closing starts inside a body) extracts to
exactly `N` occurrences, in ascending start-offset order, each `code` the
fence's interior trimmed of surrounding whitespace (`expectedOccs`); and when
the trailing segment is an unterminated opening fence (`pre ++ OPEN ++ t`
with no closing fence in `t`), that dangling opening produces no occurrence:
the same `N` occurrences come back. -/
theorem mermaid_extraction_returns_all_fences
    (ps : List (List Char × List Char)) (g : List Char)
    (hok : fencesOk ps = true) :
    (hasSub OPEN g = false →
      extractMermaid (mkDoc ps g) = expectedOccs ps 0 ∧
        (extractMermaid (mkDoc ps g)).length = ps.length ∧
        List.Chain' (fun a b => a.index < b.index)
          (extractMermaid (mkDoc ps g))) ∧
    (∀ pre t, hasSub OPEN (pre ++ OPENinit) = false →
      hasSub CLOSE t = false →
      extractMermaid (mkDoc ps (pre ++ (OPEN ++ t))) = expectedOccs ps 0 ∧
        (extractMermaid (mkDoc ps (pre ++ (OPEN ++ t)))).length = ps.length) := by
  constructor
  · intro hg
    have hmain : extractMermaid (mkDoc ps g) = expectedOccs ps 0 := by
      unfold extractMermaid
      rw [extractAux_mkDoc ps g 0 hok,
        extractAux_none _ (hasSub_false_iff.mp hg), List.append_nil]
    refine ⟨hmain, ?_, ?_⟩
    · rw [hmain, expectedOccs_length]
    · rw [hmain]; exact expectedOccs_ascending ps 0
  · intro pre t hpre ht
    have h1 : findSub OPEN (pre ++ (OPEN ++ t)) = some pre.length :=
      findSub_gap_open pre t hpre
    have hdrop : (pre ++ (OPEN ++ t)).drop (pre.length + OPEN.length) = t := by
      rw [show pre ++ (OPEN ++ t) = (pre ++ OPEN) ++ t by
        simp [List.append_assoc]]
      rw [show pre.length + OPEN.length = (pre ++ OPEN).length by
        simp [List.length_append]]
      exact List.drop_left _ _
    have h2 : findSub CLOSE ((pre ++ (OPEN ++ t)).drop
        (pre.length + OPEN.length)) = none := by
      rw [hdrop]; exact hasSub_false_iff.mp ht
    have hmain : extractMermaid (mkDoc ps (pre ++ (OPEN ++ t)))
        = expectedOccs ps 0 := by
      unfold extractMermaid
      rw [extractAux_mkDoc ps _ 0 hok, extractAux_noclose _ h1 h2,
        List.append_nil]
    exact ⟨hmain, by rw [hmain, expectedOccs_length]⟩

theorem mermaid_extraction_returns_all_fences_witness :
    fencesOk [("A ".data, "X\n".data), (" B ".data, "Y\n".data)] = true ∧
    hasSub OPEN " C".data = false ∧
    extractMermaid
        (mkDoc [("A ".data, "X\n".data), (" B ".data, "Y\n".data)] " C".data)
      = expectedOccs [("A ".data, "X\n".data), (" B ".data, "Y\n".data)] 0 ∧
    hasSub CLOSE " no close".data = false ∧
    extractMermaid
        (mkDoc [("A ".data, "X\n".data), (" B ".data, "Y\n".data)]
          (" D".data ++ (OPEN ++ " no close".data)))
      = expectedOccs [("A ".data, "X\n".data), (" B ".data, "Y\n".data)] 0 :=
  ⟨by decide, by decide,
   ((mermaid_extraction_returns_all_fences
      [("A ".data, "X\n".data), (" B ".data, "Y\n".data)] " C".data
      (by decide)).1 (by decide)).1,
   by decide,
   ((mermaid_extraction_returns_all_fences
      [("A ".data, "X\n".data), (" B ".data, "Y\n".data)] " C".data
      (by decide)).2 " D".data " no close".data (by decide) (by decide)).1⟩

/-- The spec's two-diagram scenario document:
`A (mermaid fence with X) B (mermaid fence with Y) C`. -/
def docXY : List Char :=
  mkDoc [("A ".data, "X\n".data), (" B ".data, "Y\n".data)] " C".data

/-- A renderer that throws for diagram `X` and succeeds for diagram `Y`. -/
def renderXY : List Char → Option (List Char) :=
  fun code => if code = "Y".data then some "IMGY".data else none

/-- C3: a single diagram's render failure never aborts the rewriter. First
conjunct: for every document and render oracle the output is the segment-wise
`expectedRewrite`, whose failure branch contributes exactly the span's
original text at its position while the other substitutions proceed (and the
rewriter, a total function, returns normally).  Second conjunct: every
extracted span's text in the document is the occurrence's original fenced
block, so a failed diagram's block reappears verbatim.  Third conjunct, the
claim's concrete scenario: in the two-diagram document where `X`'s render
fails and `Y`'s succeeds, the output is the original text with only `Y`'s
span replaced by its image reference. -/
theorem mermaid_render_failure_recovered_locally :
    (∀ (content : List Char) (render : List Char → Option (List Char))
        (st en : Nat) (fmt : List Char), fmt ≠ "html".data →
      (processMermaid content fmt render st en).1 =
        expectedRewrite
          ((extractMermaid content).map
            (fun d => (d, (render d.code).map imageTag))) content) ∧
    (∀ content : List Char, ∀ d ∈ extractMermaid content,
      (content.drop d.index).take d.original.length = d.original) ∧
    (processMermaid docXY "pdf".data renderXY 5 60).1 =
      "A ".data ++ OPEN ++ "X\n".data ++ CLOSE ++ " B ".data ++
        imageTag "IMGY".data ++ " C".data := by
  refine ⟨fun content render st en fmt hfmt =>
    processMermaid_eq_expected content render st en fmt hfmt,
    fun content => (extract_valid content).2, ?_⟩
  have hex : extractMermaid docXY =
      expectedOccs [("A ".data, "X\n".data), (" B ".data, "Y\n".data)] 0 := by
    unfold docXY extractMermaid
    rw [extractAux_mkDoc _ _ 0 (by decide),
      extractAux_none _ (by decide), List.append_nil]
  show (processMermaid docXY "pdf".data renderXY 5 60).1 = _
  unfold processMermaid
  rw [if_neg (by decide), renderLoopAux_fst, hex]
  decide

theorem mermaid_render_failure_recovered_locally_witness :
    ("pdf".data ≠ "html".data) ∧
      (processMermaid docXY "pdf".data renderXY 5 60).1 =
        expectedRewrite
          ((extractMermaid docXY).map
            (fun d => (d, (renderXY d.code).map imageTag))) docXY :=
  ⟨by decide,
   mermaid_render_failure_recovered_locally.1 docXY renderXY 5 60
     "pdf".data (by decide)⟩

/-- C4: for a non-HTML conversion over the configured sub-range
`[start, end]`, every progress event the diagram-rendering loop passes to the
tracker carries the value
`min (start + (end - start) * k / N) end` — `start` plus the floored
proportional share, capped at `end` — where `k` (the event's message index
`Rendered diagram k/N`) is the number of diagrams processed so far and `N`
the total; and with `N = 0` the loop emits no progress event at all (the
guarded division is never evaluated) and the document text passes through
unchanged. -/
theorem mermaid_progress_event_formula (content : List Char)
    (render : List Char → Option (List Char)) (st en : Nat)
    (fmt : List Char) (hfmt : fmt ≠ "html".data) (hse : st ≤ en) :
    (∀ e ∈ (processMermaid content fmt render st en).2,
      e.1 = min (st + ((en - st) * e.2) / (extractMermaid content).length) en ∧
        1 ≤ e.2 ∧ e.2 ≤ (extractMermaid content).length) ∧
    ((extractMermaid content).length = 0 →
      (processMermaid content fmt render st en).2 = [] ∧
        (processMermaid content fmt render st en).1 = content) := by
  unfold processMermaid
  rw [if_neg hfmt]
  constructor
  · intro e he
    have := renderLoopAux_events st en
      ((extractMermaid content).map
        (fun d => (d, (render d.code).map imageTag))).length
      ((extractMermaid content).map
        (fun d => (d, (render d.code).map imageTag))) content e he
    simpa [List.length_map] using this
  · intro h0
    have hnil : extractMermaid content = [] := List.length_eq_zero.mp h0
    rw [hnil]
    exact ⟨rfl, rfl⟩

theorem mermaid_progress_event_formula_witness :
    ("docx".data ≠ "html".data) ∧ 5 ≤ 60 ∧
      (∀ e ∈ (processMermaid "plain text".data "docx".data
          (fun _ => none) 5 60).2,
        e.1 = min (5 + ((60 - 5) * e.2) /
            (extractMermaid "plain text".data).length) 60 ∧
          1 ≤ e.2 ∧ e.2 ≤ (extractMermaid "plain text".data).length) :=
  ⟨by decide, by decide,
   (mermaid_progress_event_formula "plain text".data (fun _ => none) 5 60
     "docx".data (by decide) (by decide)).1⟩

/-- C5, counterexample: the claim says an invalid-format request with a job
id leaves the registry without a job for that id — but the handler runs
`initJob(jobId)` and `updateProgress(jobId, 1, 'Upload received')` *before*
the format check, so on an empty registry the rejected request leaves behind
a job with progress 1. -/
theorem invalid_format_job_created_counterexample :
    (convertPrelude [] ⟨true, "xml".data, some 7⟩).2 =
        .badRequest "Invalid format".data ∧
      findJob (convertPrelude [] ⟨true, "xml".data, some 7⟩).1 7 =
        some { progress := 1, message := "Upload received".data,
               status := .pending, subscribers := [] } := by
  decide

/-- C5, amended: an unsupported format is rejected before the conversion
pipeline starts, but when a job id is supplied the registry entry *is*
created (if absent) and mutated first — after the rejection the job exists,
and a previously absent job holds progress 1 with message `Upload
received`. -/
theorem invalid_format_rejected_but_job_touched (reg : Registry) (id : Nat)
    (fmt : List Char) (hfmt : validFormat fmt = false) :
    (convertPrelude reg ⟨true, fmt, some id⟩).2 =
        .badRequest "Invalid format".data ∧
      (convertPrelude reg ⟨true, fmt, some id⟩).1 =
        (updateProgress (initJob reg (some id)) (some id) 1
          "Upload received".data).1 ∧
      findJob (convertPrelude reg ⟨true, fmt, some id⟩).1 id ≠ none ∧
      (findJob reg id = none →
        findJob (convertPrelude reg ⟨true, fmt, some id⟩).1 id =
          some { progress := 1, message := "Upload received".data,
                 status := .pending, subscribers := [] }) := by
  have hpre : convertPrelude reg ⟨true, fmt, some id⟩ =
      ((updateProgress (initJob reg (some id)) (some id) 1
        "Upload received".data).1, .badRequest "Invalid format".data) := by
    unfold convertPrelude
    simp [hfmt]
  refine ⟨by rw [hpre], by rw [hpre], ?_, ?_⟩
  · rw [hpre]
    cases hj : findJob (initJob reg (some id)) id with
    | none => exact absurd hj (findJob_initJob reg id)
    | some j =>
        rw [updateProgress_found hj]
        simp [findJob_setJob_self]
  · intro hnone
    rw [hpre]
    have hinit : initJob reg (some id) =
        setJob reg id { progress := 0, message := "Starting".data,
                        status := .pending, subscribers := [] } := by
      simp only [initJob, hnone]
    have hj : findJob (initJob reg (some id)) id =
        some { progress := 0, message := "Starting".data,
               status := .pending, subscribers := [] } := by
      rw [hinit]; exact findJob_setJob_self _ _ _
    rw [updateProgress_found hj]
    simp only [findJob_setJob_self]
    congr 1

theorem invalid_format_rejected_but_job_touched_witness :
    validFormat "xml".data = false ∧
      ((convertPrelude [] ⟨true, "xml".data, some 7⟩).2 =
          .badRequest "Invalid format".data ∧
        (convertPrelude [] ⟨true, "xml".data, some 7⟩).1 =
          (updateProgress (initJob [] (some 7)) (some 7) 1
            "Upload received".data).1 ∧
        findJob (convertPrelude [] ⟨true, "xml".data, some 7⟩).1 7 ≠ none ∧
        (findJob ([] : Registry) 7 = none →
          findJob (convertPrelude [] ⟨true, "xml".data, some 7⟩).1 7 =
            some { progress := 1, message := "Upload received".data,
                   status := .pending, subscribers := [] })) :=
  ⟨by decide, invalid_format_rejected_but_job_touched [] 7 "xml".data (by decide)⟩

/-- C6: `updateProgress(id, progress, message)` on an existing job stores
`Math.floor(progress)` clamped into `[0, 100]`, replaces the message only
when it is non-empty (an empty message keeps the prior one), and pushes the
resulting state to every current subscriber; on a nil id or an id naming no
job it changes nothing and pushes nothing. -/
theorem updateProgress_clamps_floors_and_pushes :
    (∀ (reg : Registry) (id : Nat) (job : Job) (q : ℚ) (msg : List Char),
      findJob reg id = some job →
      findJob (updateProgress reg (some id) q msg).1 id =
          some { job with progress := max 0 (min 100 (Rat.floor q)),
                          message := if msg.isEmpty then job.message else msg } ∧
        (updateProgress reg (some id) q msg).2 =
          job.subscribers.map
            (fun c => (c, max 0 (min 100 (Rat.floor q)),
                       if msg.isEmpty then job.message else msg))) ∧
    (∀ (reg : Registry) (q : ℚ) (msg : List Char),
      updateProgress reg none q msg = (reg, [])) ∧
    (∀ (reg : Registry) (id : Nat) (q : ℚ) (msg : List Char),
      findJob reg id = none → updateProgress reg (some id) q msg = (reg, [])) := by
  refine ⟨?_, ?_, ?_⟩
  · intro reg id job q msg h
    rw [updateProgress_found h]
    simp [findJob_setJob_self]
  · intro reg q msg
    rfl
  · intro reg id q msg h
    simp only [updateProgress, h]

theorem updateProgress_clamps_floors_and_pushes_witness :
    findJob [(1, Job.mk 0 "Starting".data .pending [5])] 1 =
        some (Job.mk 0 "Starting".data .pending [5]) ∧
      (findJob (updateProgress [(1, Job.mk 0 "Starting".data .pending [5])]
            (some 1) (mkRat 57 2) "Halfway".data).1 1 =
          some { Job.mk 0 "Starting".data .pending [5] with
                 progress := max 0 (min 100 (Rat.floor (mkRat 57 2))),
                 message := if ("Halfway".data).isEmpty
                   then (Job.mk 0 "Starting".data .pending [5]).message
                   else "Halfway".data } ∧
        (updateProgress [(1, Job.mk 0 "Starting".data .pending [5])]
            (some 1) (mkRat 57 2) "Halfway".data).2 =
          (Job.mk 0 "Starting".data .pending [5]).subscribers.map
            (fun c => (c, max 0 (min 100 (Rat.floor (mkRat 57 2))),
                       if ("Halfway".data).isEmpty
                         then (Job.mk 0 "Starting".data .pending [5]).message
                         else "Halfway".data))) :=
  ⟨by decide,
   updateProgress_clamps_floors_and_pushes.1
     [(1, Job.mk 0 "Starting".data .pending [5])] 1
     (Job.mk 0 "Starting".data .pending [5]) (mkRat 57 2) "Halfway".data
     (by decide)⟩

/-- C8: the tracker does not enforce monotonicity.  Concretely: a job whose
progress was set to 50 accepts a later update to the lower in-range value 30,
stores 30, and pushes 30 to its subscriber — regression is permitted and is
not an error. -/
theorem progress_regression_permitted :
    findJob (updateProgress [(1, Job.mk 0 "Starting".data .pending [9])]
        (some 1) 50 "a".data).1 1 =
      some (Job.mk 50 "a".data .pending [9]) ∧
    findJob (updateProgress
        (updateProgress [(1, Job.mk 0 "Starting".data .pending [9])]
          (some 1) 50 "a".data).1
        (some 1) 30 "b".data).1 1 =
      some (Job.mk 30 "b".data .pending [9]) ∧
    (updateProgress
        (updateProgress [(1, Job.mk 0 "Starting".data .pending [9])]
          (some 1) 50 "a".data).1
        (some 1) 30 "b".data).2 = [(9, 30, "b".data)] := by
  decide

/-- C7: `completeJob(id)` on an existing job marks it `done` and produces the
timed trace: at time 0 the final `progress = 100 / 'Done'` event is pushed to
every current subscriber; only at time 250 (the short flush delay) is every
subscriber channel closed and the subscriber set cleared; and only at time
250 + 60000 (the further longer delay) is the job deleted from the registry.
Every event write (time 0) therefore strictly precedes every channel close
(time 250), which strictly precedes the registry eviction. -/
theorem completeJob_final_event_then_close_then_delete (reg : Registry)
    (id : Nat) (job : Job) (h : findJob reg id = some job) :
    completeJob reg (some id) =
      (setJob reg id
        { job with status := .done, progress := 100, message := "Done".data },
       job.subscribers.map (fun c => (0, TAct.push c 100 "Done".data))
         ++ job.subscribers.map (fun c => (250, TAct.closeChan c))
         ++ [(250, TAct.clearSubs id), (250 + 60000, TAct.deleteJob id)]) ∧
    findJob (completeJob reg (some id)).1 id =
      some { job with status := .done, progress := 100,
                      message := "Done".data } ∧
    (∀ c ∈ job.subscribers,
      (0, TAct.push c 100 "Done".data) ∈ (completeJob reg (some id)).2) := by
  have hfloor : max 0 (min 100 (Rat.floor (100 : ℚ))) = (100 : Int) := by
    decide
  have h1 : findJob (setJob reg id { job with status := JobStatus.done }) id
      = some { job with status := JobStatus.done } := findJob_setJob_self _ _ _
  have h2 := updateProgress_found h1 (100 : ℚ) "Done".data
  have hmain : completeJob reg (some id) =
      (setJob reg id
        { job with status := .done, progress := 100, message := "Done".data },
       job.subscribers.map (fun c => (0, TAct.push c 100 "Done".data))
         ++ job.subscribers.map (fun c => (250, TAct.closeChan c))
         ++ [(250, TAct.clearSubs id), (250 + 60000, TAct.deleteJob id)]) := by
    have hne : ("Done".data.isEmpty) = false := rfl
    simp only [completeJob, h, h2, hne, Bool.false_eq_true, if_false, hfloor,
      setJob_setJob, List.map_map, Function.comp_def]
  refine ⟨hmain, ?_, ?_⟩
  · rw [hmain]
    exact findJob_setJob_self _ _ _
  · intro c hc
    rw [hmain]
    simp only [List.mem_append, List.mem_map]
    exact Or.inl (Or.inl ⟨c, hc, rfl⟩)

theorem completeJob_final_event_then_close_then_delete_witness :
    findJob [(4, Job.mk 90 "Rendering".data .pending [3, 8])] 4 =
        some (Job.mk 90 "Rendering".data .pending [3, 8]) ∧
      (completeJob [(4, Job.mk 90 "Rendering".data .pending [3, 8])] (some 4) =
        (setJob [(4, Job.mk 90 "Rendering".data .pending [3, 8])] 4
          { Job.mk 90 "Rendering".data .pending [3, 8] with
            status := .done, progress := 100, message := "Done".data },
         (Job.mk 90 "Rendering".data .pending [3, 8]).subscribers.map
             (fun c => (0, TAct.push c 100 "Done".data))
           ++ (Job.mk 90 "Rendering".data .pending [3, 8]).subscribers.map
             (fun c => (250, TAct.closeChan c))
           ++ [(250, TAct.clearSubs 4), (250 + 60000, TAct.deleteJob 4)]) ∧
       findJob (completeJob [(4, Job.mk 90 "Rendering".data .pending [3, 8])]
           (some 4)).1 4 =
         some { Job.mk 90 "Rendering".data .pending [3, 8] with
                status := .done, progress := 100, message := "Done".data } ∧
       (∀ c ∈ (Job.mk 90 "Rendering".data .pending [3, 8]).subscribers,
         (0, TAct.push c 100 "Done".data) ∈
           (completeJob [(4, Job.mk 90 "Rendering".data .pending [3, 8])]
             (some 4)).2)) :=
  ⟨by decide,
   completeJob_final_event_then_close_then_delete
     [(4, Job.mk 90 "Rendering".data .pending [3, 8])] 4
     (Job.mk 90 "Rendering".data .pending [3, 8]) (by decide)⟩

/-- C10: when the `/convert` handler reaches its catch block with a job id
whose job exists, it emits the single progress update `100 / 'Error'` to the
job's subscribers but never invokes `completeJob`: the job stays in the
registry with its status still `pending`, and the returned timed-action trace
is empty — no subscriber channel close, no subscriber-set clear and no
registry eviction is ever scheduled by the tracker for this job. -/
theorem convert_catch_no_completion (reg : Registry) (id : Nat) (job : Job)
    (h : findJob reg id = some job) (hp : job.status = .pending) :
    findJob (convertCatch reg (some id)).1 id =
      some { job with progress := 100, message := "Error".data } ∧
    ({ job with progress := 100, message := "Error".data } : Job).status =
      JobStatus.pending ∧
    (convertCatch reg (some id)).2.1 =
      job.subscribers.map (fun c => (c, 100, "Error".data)) ∧
    (convertCatch reg (some id)).2.2 = [] := by
  have hfloor : max 0 (min 100 (Rat.floor (100 : ℚ))) = (100 : Int) := by
    decide
  have h2 := updateProgress_found h (100 : ℚ) "Error".data
  refine ⟨?_, by simpa using hp, ?_, rfl⟩
  · show findJob (updateProgress reg (some id) 100 "Error".data).1 id = _
    rw [h2]
    simp only [findJob_setJob_self, hfloor]
    congr 1
  · show (updateProgress reg (some id) 100 "Error".data).2 = _
    rw [h2]
    simp only [hfloor]
    congr 1

theorem convert_catch_no_completion_witness :
    findJob [(2, Job.mk 40 "Rendering".data .pending [6])] 2 =
        some (Job.mk 40 "Rendering".data .pending [6]) ∧
      (Job.mk 40 "Rendering".data .pending [6]).status = JobStatus.pending ∧
      (findJob (convertCatch [(2, Job.mk 40 "Rendering".data .pending [6])]
            (some 2)).1 2 =
          some { Job.mk 40 "Rendering".data .pending [6] with
                 progress := 100, message := "Error".data } ∧
        ({ Job.mk 40 "Rendering".data .pending [6] with
           progress := 100, message := "Error".data } : Job).status =
          JobStatus.pending ∧
        (convertCatch [(2, Job.mk 40 "Rendering".data .pending [6])]
            (some 2)).2.1 =
          (Job.mk 40 "Rendering".data .pending [6]).subscribers.map
            (fun c => (c, 100, "Error".data)) ∧
        (convertCatch [(2, Job.mk 40 "Rendering".data .pending [6])]
            (some 2)).2.2 = []) :=
  ⟨by decide, by decide,
   convert_catch_no_completion [(2, Job.mk 40 "Rendering".data .pending [6])]
     2 (Job.mk 40 "Rendering".data .pending [6]) (by decide) (by decide)⟩

end MdConv
